import Mathlib

/-!
Shallow embedding of mushroom_rl/utils/replay_memory.py: the ring buffer
ReplayMemory, the SumTree priority structure, the importance-weight
computation of PrioritizedReplayMemory, and the episodic
SequentialReplayMemory.  Priorities, rewards and observations are modelled
by exact rationals; the fixed-size numpy arrays are modelled by total
functions updated pointwise, with the array length determined by the
stored capacity.
-/







/-! ### Definitions -/

/-- One transition record (state, action, reward, next_state, absorbing, last). -/
structure Transition where
  state : ℚ
  action : ℚ
  reward : ℚ
  next_state : ℚ
  absorbing : Bool
  last : Bool
deriving DecidableEq, Repr

instance : Inhabited Transition := ⟨⟨0, 0, 0, 0, false, false⟩⟩

/-- Parent index in the flat heap array: the `(idx - 1) // 2` of
`SumTree._propagate`, on the natural-number indices actually reached
when the tree has at least two leaves. -/
def parentIdx (idx : ℕ) : ℕ := (idx - 1) / 2

/-- Python's `(idx - 1) // 2` on unrestricted integers (floor division),
used to analyse `SumTree._propagate` starting from index 0, where the
Python expression produces -1. -/
def pyParent (i : ℤ) : ℤ := (i - 1).fdiv 2

/-- Model of `SumTree._propagate`: add `delta` to the parent of `idx` and
recurse until the node just updated is the root. -/
def propagate (delta : ℚ) (idx : ℕ) (t : ℕ → ℚ) : ℕ → ℚ :=
  if parentIdx idx = 0 then Function.update t (parentIdx idx) (t (parentIdx idx) + delta)
  else propagate delta (parentIdx idx) (Function.update t (parentIdx idx) (t (parentIdx idx) + delta))
termination_by idx
decreasing_by simp only [parentIdx] at *; omega

/-- Body of the loop of `SumTree.update` for one `(index, priority)` pair:
compute the delta at the leaf, overwrite the leaf, propagate the delta. -/
def treeUpdate1 (t : ℕ → ℚ) (i : ℕ) (p : ℚ) : ℕ → ℚ :=
  propagate (p - t i) i (Function.update t i p)

/-- The state of `SumTree`: capacity, flat heap array of priorities
(length `2 * max_size - 1`), payload array (length `max_size`),
write cursor and wraparound flag. -/
structure SumTree (α : Type) where
  max_size : ℕ
  tree : ℕ → ℚ
  data : ℕ → Option α
  idx : ℕ
  full : Bool

/-- Model of `SumTree.__init__`. -/
def SumTree.init (α : Type) (max_size : ℕ) : SumTree α :=
  ⟨max_size, fun _ => 0, fun _ => none, 0, false⟩

/-- Model of `SumTree.update`, folded over the `(index, priority)` pairs. -/
def SumTree.update {α : Type} (st : SumTree α) (ups : List (ℕ × ℚ)) : SumTree α :=
  { st with tree := ups.foldl (fun t ip => treeUpdate1 t ip.1 ip.2) st.tree }

/-- One iteration of the loop of `SumTree.add`: write the payload at the
cursor, update the corresponding leaf, advance and wrap the cursor. -/
def SumTree.add1 {α : Type} (st : SumTree α) (d : α) (p : ℚ) : SumTree α :=
  let st' := { st with data := Function.update st.data st.idx (some d),
                       tree := treeUpdate1 st.tree (st.idx + st.max_size - 1) p }
  if st.idx + 1 = st.max_size then { st' with idx := 0, full := true }
  else { st' with idx := st.idx + 1 }

/-- Model of `SumTree.add` over a zipped list of payloads and priorities. -/
def SumTree.add {α : Type} (st : SumTree α) (ds : List (α × ℚ)) : SumTree α :=
  ds.foldl (fun s dp => s.add1 dp.1 dp.2) st

/-- Model of `SumTree._retrieve`: descend from `idx`; at a tie between the
two children take the child chosen by the random oracle `coin` (indexed by
recursion depth `n`), otherwise go left when `s` is at most the left sum,
else go right with `s` reduced by the left sum.  A node is a leaf when its
left child index falls outside the array of length `2 * max_size - 1`. -/
def retrieve (m : ℕ) (t : ℕ → ℚ) (coin : ℕ → Bool) (n : ℕ) (s : ℚ) (idx : ℕ) : ℕ :=
  if 2 * m - 1 ≤ 2 * idx + 1 then idx
  else if t (2 * idx + 1) = t (2 * idx + 2) then
    (if coin n then retrieve m t coin (n + 1) s (2 * idx + 1)
     else retrieve m t coin (n + 1) s (2 * idx + 2))
  else if s ≤ t (2 * idx + 1) then retrieve m t coin (n + 1) s (2 * idx + 1)
  else retrieve m t coin (n + 1) (s - t (2 * idx + 1)) (2 * idx + 2)
termination_by 2 * m - idx
decreasing_by all_goals omega

/-- Model of `SumTree.get`: retrieve from the root and return the leaf
index, its priority and the payload (the Python `idx - max_size + 1` is
written `idx + 1 - max_size` so that truncated subtraction agrees with it
on the leaf range). -/
def SumTree.get {α : Type} (st : SumTree α) (coin : ℕ → Bool) (s : ℚ) : ℕ × ℚ × Option α :=
  let idx := retrieve st.max_size st.tree coin 0 s 0
  (idx, st.tree idx, st.data (idx + 1 - st.max_size))

/-- Model of `SumTree.size`. -/
def SumTree.size {α : Type} (st : SumTree α) : ℕ :=
  if st.full then st.max_size else st.idx

/-- Model of `SumTree.total_p`: the root of the heap array. -/
def SumTree.totalP {α : Type} (st : SumTree α) : ℚ := st.tree 0

/-- Maximum of a nonempty list, as numpy's `.max()`; the empty case
(on which numpy raises) is given the unused sentinel 0. -/
def npMax : List ℚ → ℚ
  | [] => 0
  | x :: xs => xs.foldl max x

/-- Model of `SumTree.max_p`: numpy max of `tree[-max_size:]`, i.e. of the
last `max_size` entries of the heap array, which are the indices
`max_size - 1 + j` for `j < max_size`. -/
def SumTree.maxP {α : Type} (st : SumTree α) : ℚ :=
  npMax ((List.range st.max_size).map (fun j => st.tree (st.max_size - 1 + j)))

/-- Maximum of the populated leaves only (the first `size` leaf slots),
following the spec's words; to be compared with `SumTree.maxP`. -/
def SumTree.maxPopulated {α : Type} (st : SumTree α) : ℚ :=
  npMax ((List.range st.size).map (fun j => st.tree (st.max_size - 1 + j)))

/-- Defect of node `j`: its value minus the sum of its two children.
The sum-tree invariant is that every internal node has defect zero. -/
def defect (t : ℕ → ℚ) (j : ℕ) : ℚ := t j - t (2 * j + 1) - t (2 * j + 2)

/-- Sum-tree node invariant: every internal node holds the sum of its two
children. -/
def nodeInv (m : ℕ) (t : ℕ → ℚ) : Prop :=
  ∀ i, i < m - 1 → t i = t (2 * i + 1) + t (2 * i + 2)

/-- Sum of all leaf slots of a heap array with `m` leaves. -/
def leafSum (m : ℕ) (t : ℕ → ℚ) : ℚ := ∑ j in Finset.Ico (m - 1) (2 * m - 1), t j

/-- Internal well-formedness of a `SumTree` state: cursor in range, node
invariant, and root equal to the sum of the leaves. -/
def SumTree.Inv {α : Type} (st : SumTree α) : Prop :=
  st.idx < st.max_size ∧ nodeInv st.max_size st.tree
    ∧ st.tree 0 = leafSum st.max_size st.tree

/-- An operation on a `SumTree`: a batched `add` or a batched `update`. -/
inductive SumTreeOp (α : Type) where
  | add (ds : List (α × ℚ))
  | upd (ups : List (ℕ × ℚ))

/-- Apply one operation. -/
def SumTree.applyOp {α : Type} (st : SumTree α) : SumTreeOp α → SumTree α
  | .add ds => st.add ds
  | .upd ups => st.update ups

/-- An operation is valid for capacity `m` when every updated index is a
leaf index of the heap array. -/
def validOp {α : Type} (m : ℕ) : SumTreeOp α → Prop
  | .add _ => True
  | .upd ups => ∀ ip ∈ ups, m - 1 ≤ ip.1 ∧ ip.1 < 2 * m - 1

/-- Run a sequence of operations from a freshly constructed tree. -/
def SumTree.run (α : Type) (m : ℕ) (ops : List (SumTreeOp α)) : SumTree α :=
  ops.foldl SumTree.applyOp (SumTree.init α m)

/-- Sum of the leaves below node `idx` of a heap array with `m` leaves,
computed by the same descent as `SumTree._retrieve`. -/
def subtreeSum (m : ℕ) (t : ℕ → ℚ) (idx : ℕ) : ℚ :=
  if 2 * m - 1 ≤ 2 * idx + 1 then t idx
  else subtreeSum m t (2 * idx + 1) + subtreeSum m t (2 * idx + 2)
termination_by 2 * m - idx
decreasing_by all_goals omega

/-- Predicate stating that `idx` lies on the ancestor chain of the leaf
`L` (including `L` itself). -/
def Anc (L idx : ℕ) : Prop := ∃ k, parentIdx^[k] L = idx

/-- A concrete tree with three leaves reached by a single `add` of
priority 10: the populated leaf is heap index 2 and holds the whole mass. -/
def exTree3 : SumTree ℚ := (SumTree.init ℚ 3).add [(42, 10)]

/-- A concrete two-leaf tree reached by a single `add` of priority 8. -/
def exTree2 : SumTree ℚ := (SumTree.init ℚ 2).add [(9, 8)]

/-- A concrete two-leaf tree reached by a single `add` of priority -5. -/
def exTree2Neg : SumTree ℚ := (SumTree.init ℚ 2).add [(7, -5)]

/-- The importance-weight computation of `PrioritizedReplayMemory.get`:
`is_weight = (size * (priorities / total_p)) ** (-beta)` followed by
`is_weight /= is_weight.max()`.  The power is modelled exactly, for
integer exponents `beta`. -/
def isWeights (beta : ℤ) (size : ℕ) (totalP : ℚ) (priorities : List ℚ) : List ℚ :=
  let raw := priorities.map (fun p => ((size : ℚ) * (p / totalP)) ^ (-beta))
  raw.map (fun w => w / npMax raw)

/-- The state of `ReplayMemory`: six parallel arrays (modelled as total
functions into `Option`, `none` standing for the initial `None` entries),
the shared write cursor and the wraparound flag. -/
structure ReplayMemory where
  initial_size : ℕ
  max_size : ℕ
  idx : ℕ
  full : Bool
  states : ℕ → Option ℚ
  actions : ℕ → Option ℚ
  rewards : ℕ → Option ℚ
  next_states : ℕ → Option ℚ
  absorbing : ℕ → Option Bool
  last : ℕ → Option Bool

/-- Model of `ReplayMemory.__init__`, which calls `reset`. -/
def ReplayMemory.init (initial_size max_size : ℕ) : ReplayMemory :=
  ⟨initial_size, max_size, 0, false, fun _ => none, fun _ => none,
   fun _ => none, fun _ => none, fun _ => none, fun _ => none⟩

/-- One iteration of the loop of `ReplayMemory.add`: write the six fields
of one transition at the cursor, advance, and wrap setting `full`. -/
def ReplayMemory.add1 (rm : ReplayMemory) (d : Transition) : ReplayMemory :=
  let rm' := { rm with
    states := Function.update rm.states rm.idx (some d.state),
    actions := Function.update rm.actions rm.idx (some d.action),
    rewards := Function.update rm.rewards rm.idx (some d.reward),
    next_states := Function.update rm.next_states rm.idx (some d.next_state),
    absorbing := Function.update rm.absorbing rm.idx (some d.absorbing),
    last := Function.update rm.last rm.idx (some d.last) }
  if rm.idx + 1 = rm.max_size then { rm' with idx := 0, full := true }
  else { rm' with idx := rm.idx + 1 }

/-- Model of `ReplayMemory.add`. -/
def ReplayMemory.add (rm : ReplayMemory) (ds : List Transition) : ReplayMemory :=
  ds.foldl ReplayMemory.add1 rm

/-- Model of `ReplayMemory.size`. -/
def ReplayMemory.size (rm : ReplayMemory) : ℕ :=
  if rm.full then rm.max_size else rm.idx

/-- Slot `j` of all six parallel arrays holds the fields of transition `d`. -/
def slotEq (rm : ReplayMemory) (j : ℕ) (d : Transition) : Prop :=
  rm.states j = some d.state ∧ rm.actions j = some d.action
    ∧ rm.rewards j = some d.reward ∧ rm.next_states j = some d.next_state
    ∧ rm.absorbing j = some d.absorbing ∧ rm.last j = some d.last

/-- Positions of the transitions whose absorbing flag is set, starting the
count at `i`: the `np.where(dataset[:, -2])[0]` of `_split_dataset`. -/
def whereAbsorbing : List Transition → ℕ → List ℕ
  | [], _ => []
  | x :: xs, i =>
    if x.absorbing then i :: whereAbsorbing xs (i + 1) else whereAbsorbing xs (i + 1)

/-- The slices `dataset[start:end]` taken over consecutive pairs of the
cut list, as in the loop of `_split_dataset`. -/
def sliceEps (ds : List Transition) (args : List ℕ) : List (List Transition) :=
  (args.zip args.tail).map (fun se => (ds.drop se.1).take (se.2 - se.1))

/-- Model of `SequentialReplayMemory._split_dataset`: cut the dataset
after every transition whose absorbing flag is set; the complete episodes
are the slices between consecutive cuts and the unfinished remainder is
the tail after the last cut.  (On an empty dataset numpy raises; the model
returns `([], [])`, which no claim relies on.) -/
def splitDataset (ds : List Transition) : List (List Transition) × List Transition :=
  let args : List ℕ := 0 :: (whereAbsorbing ds 0).map (· + 1)
  (sliceEps ds args, ds.drop (args.getLastD 0))

/-- The 7-step stream of the claim, with episode-boundary flags at
positions 2 and 5 (0-indexed). -/
def c5ex : List Transition :=
  [⟨0, 0, 0, 0, false, false⟩, ⟨1, 0, 0, 0, false, false⟩,
   ⟨2, 0, 0, 0, true, false⟩, ⟨3, 0, 0, 0, false, false⟩,
   ⟨4, 0, 0, 0, false, false⟩, ⟨5, 0, 0, 0, true, false⟩,
   ⟨6, 0, 0, 0, false, false⟩]

/-- The state of `SequentialReplayMemory`.  The six per-field episode
lists (`_states`, `_actions`, and so on — lists of per-episode lists) are
appended to and popped from in lockstep with identical indexing, so they
are packaged as one list of episodes of transition records.  `_lengths`
and the running `_size` counter are kept separately as in the source, and
`unfinished_episode` carries the transitions after the last episode
boundary. -/
structure SeqReplayMemory where
  initial_size : ℕ
  max_size : ℕ
  unroll_steps : ℕ
  size : ℕ
  episodes : List (List Transition)
  lengths : List ℕ
  unfinished : List Transition

/-- Model of `SequentialReplayMemory.__init__`. -/
def SeqReplayMemory.init (initial_size max_size unroll_steps : ℕ) : SeqReplayMemory :=
  ⟨initial_size, max_size, unroll_steps, 0, [], [], []⟩

/-- The `while self._size > self._max_size` eviction loop of
`SequentialReplayMemory.add`: pop whole episodes from the oldest end,
subtracting the popped episode's length, until the size bound holds.
(Python would raise if the loop ran with no stored episodes; that state is
unreachable because the size always equals the sum of the stored episode
lengths, and the model simply stops there.) -/
def evictLoop (maxSize : ℕ) :
    List (List Transition) → List ℕ → ℕ → List (List Transition) × List ℕ × ℕ
  | [], lens, size => ([], lens, size)
  | e :: rest, lens, size =>
    if maxSize < size then evictLoop maxSize rest lens.tail (size - e.length)
    else (e :: rest, lens, size)

/-- The body of the episode loop of `SequentialReplayMemory.add`: store
the episode when `unroll_steps <= len(episode) < max_size` (appending it
with its length and adjusting the size), then run the eviction loop;
otherwise drop it silently. -/
def SeqReplayMemory.addEpisode (st : SeqReplayMemory) (ep : List Transition) :
    SeqReplayMemory :=
  if st.unroll_steps ≤ ep.length ∧ ep.length < st.max_size then
    let r := evictLoop st.max_size (st.episodes ++ [ep])
      (st.lengths ++ [ep.length]) (st.size + ep.length)
    { st with episodes := r.1, lengths := r.2.1, size := r.2.2 }
  else st

/-- Model of `SequentialReplayMemory.add`: split the carried-over
unfinished episode prepended to the incoming stream, keep the trailing
tail as the new unfinished episode, and store each complete episode in
turn. -/
def SeqReplayMemory.add (st : SeqReplayMemory) (ds : List Transition) :
    SeqReplayMemory :=
  (splitDataset (st.unfinished ++ ds)).1.foldl SeqReplayMemory.addEpisode
    { st with unfinished := (splitDataset (st.unfinished ++ ds)).2 }

/-- Model of `SequentialReplayMemory.reset`: clears the size, the six
episode arrays and the lengths.  Faithfully to the source,
`unfinished_episode` is NOT cleared. -/
def SeqReplayMemory.reset (st : SeqReplayMemory) : SeqReplayMemory :=
  { st with size := 0, episodes := [], lengths := [] }

/-- Well-formedness of a `SeqReplayMemory` state: every stored episode has
length in `[unroll_steps, max_size)`, the lengths list and size counter
agree with the stored episodes, and the total size is within capacity. -/
def SeqInv (st : SeqReplayMemory) : Prop :=
  (∀ e ∈ st.episodes, st.unroll_steps ≤ e.length ∧ e.length < st.max_size)
    ∧ st.lengths = st.episodes.map List.length
    ∧ st.size = (st.episodes.map List.length).sum
    ∧ st.size ≤ st.max_size

/-! ### Theorems -/

theorem propagate_defect (delta : ℚ) (idx : ℕ) (t : ℕ → ℚ) (j : ℕ) :
    defect (propagate delta idx t) j
      = defect t j + (if j = parentIdx idx then delta else 0) := by
  induction idx, t using propagate.induct delta with
  | case1 idx t hp =>
    rw [propagate, if_pos hp]
    have hup : ∀ x : ℕ, Function.update t (parentIdx idx) (t (parentIdx idx) + delta) x
        = if x = parentIdx idx then t (parentIdx idx) + delta else t x := by
      intro x; by_cases hx : x = parentIdx idx <;> simp [Function.update, hx]
    simp only [defect, hup]
    split_ifs <;> (try simp_all only []) <;> first | ring1 | (exfalso; omega)
  | case2 idx t hp ih =>
    rw [propagate, if_neg hp, ih]
    have hup : ∀ x : ℕ, Function.update t (parentIdx idx) (t (parentIdx idx) + delta) x
        = if x = parentIdx idx then t (parentIdx idx) + delta else t x := by
      intro x; by_cases hx : x = parentIdx idx <;> simp [Function.update, hx]
    have hb : parentIdx (parentIdx idx) = (parentIdx idx - 1) / 2 := rfl
    simp only [defect, hup]
    split_ifs <;> (try simp_all only []) <;> first | ring1 | (exfalso; omega)

theorem propagate_root (delta : ℚ) (idx : ℕ) (t : ℕ → ℚ) :
    propagate delta idx t 0 = t 0 + delta := by
  induction idx, t using propagate.induct delta with
  | case1 idx t hp =>
    rw [propagate, if_pos hp, hp]
    simp [Function.update]
  | case2 idx t hp ih =>
    rw [propagate, if_neg hp, ih]
    simp [Function.update, Ne.symm hp]

theorem propagate_high (delta : ℚ) (idx : ℕ) (t : ℕ → ℚ) (j : ℕ)
    (hj : parentIdx idx < j) : propagate delta idx t j = t j := by
  induction idx, t using propagate.induct delta with
  | case1 idx t hp =>
    rw [propagate, if_pos hp]
    have hne : j ≠ parentIdx idx := by omega
    simp [Function.update, hne]
  | case2 idx t hp ih =>
    rw [propagate, if_neg hp]
    have hb : parentIdx (parentIdx idx) = (parentIdx idx - 1) / 2 := rfl
    have hlt : parentIdx (parentIdx idx) < j := by omega
    rw [ih hlt]
    have hne : j ≠ parentIdx idx := by omega
    simp [Function.update, hne]

theorem treeUpdate1_defect (t : ℕ → ℚ) (i : ℕ) (p : ℚ) (hi : 1 ≤ i) (j : ℕ)
    (hj : j < i) : defect (treeUpdate1 t i p) j = defect t j := by
  unfold treeUpdate1
  rw [propagate_defect]
  have hup : ∀ x : ℕ, Function.update t i p x = if x = i then p else t x := by
    intro x; by_cases hx : x = i <;> simp [Function.update, hx]
  have hpi : parentIdx i = (i - 1) / 2 := rfl
  simp only [defect, hup]
  split_ifs <;> (try simp_all only []) <;> first | ring1 | (exfalso; omega)

theorem treeUpdate1_root (t : ℕ → ℚ) (i : ℕ) (p : ℚ) (hi : 1 ≤ i) :
    treeUpdate1 t i p 0 = t 0 + (p - t i) := by
  unfold treeUpdate1
  rw [propagate_root]
  have hne : (0 : ℕ) ≠ i := by omega
  simp [Function.update, hne]

theorem treeUpdate1_leaf (t : ℕ → ℚ) (i : ℕ) (p : ℚ) (j : ℕ)
    (hij : parentIdx i < j) : treeUpdate1 t i p j = if j = i then p else t j := by
  unfold treeUpdate1
  rw [propagate_high _ _ _ _ hij]
  by_cases h : j = i <;> simp [Function.update, h]

theorem leafSum_update (m : ℕ) (t : ℕ → ℚ) (i : ℕ) (p : ℚ) (hm : 2 ≤ m)
    (hi1 : m - 1 ≤ i) (hi2 : i < 2 * m - 1) :
    leafSum m (treeUpdate1 t i p) = leafSum m t + (p - t i) := by
  have hpar : ∀ j, m - 1 ≤ j → parentIdx i < j := by
    intro j hj; simp only [parentIdx]; omega
  unfold leafSum
  have hcong : ∀ j ∈ Finset.Ico (m - 1) (2 * m - 1),
      treeUpdate1 t i p j = t j + (if j = i then p - t i else 0) := by
    intro j hj
    simp only [Finset.mem_Ico] at hj
    rw [treeUpdate1_leaf t i p j (hpar j hj.1)]
    by_cases h : j = i
    · subst h; simp
    · simp [h]
  rw [Finset.sum_congr rfl hcong, Finset.sum_add_distrib]
  congr 1
  have hmem : i ∈ Finset.Ico (m - 1) (2 * m - 1) := by
    simp only [Finset.mem_Ico]; omega
  rw [Finset.sum_ite_eq' (Finset.Ico (m - 1) (2 * m - 1)) i (fun _ => p - t i)]
  rw [if_pos hmem]

theorem nodeInv_iff_defect (m : ℕ) (t : ℕ → ℚ) :
    nodeInv m t ↔ ∀ j, j < m - 1 → defect t j = 0 := by
  unfold nodeInv defect
  constructor <;> intro h j hj <;> have := h j hj <;> linarith

theorem treeUpdate1_nodeInv (m : ℕ) (t : ℕ → ℚ) (i : ℕ) (p : ℚ) (hm : 2 ≤ m)
    (hi1 : m - 1 ≤ i) (hInv : nodeInv m t) : nodeInv m (treeUpdate1 t i p) := by
  rw [nodeInv_iff_defect] at *
  intro j hj
  rw [treeUpdate1_defect t i p (by omega) j (by omega)]
  exact hInv j hj

theorem treeUpdate1_rootEq (m : ℕ) (t : ℕ → ℚ) (i : ℕ) (p : ℚ) (hm : 2 ≤ m)
    (hi1 : m - 1 ≤ i) (hi2 : i < 2 * m - 1) (h : t 0 = leafSum m t) :
    treeUpdate1 t i p 0 = leafSum m (treeUpdate1 t i p) := by
  rw [treeUpdate1_root t i p (by omega), leafSum_update m t i p hm hi1 hi2, h]

theorem foldUpdate_inv (m : ℕ) (hm : 2 ≤ m) (ups : List (ℕ × ℚ)) (t : ℕ → ℚ)
    (hv : ∀ ip ∈ ups, m - 1 ≤ ip.1 ∧ ip.1 < 2 * m - 1)
    (h1 : nodeInv m t) (h2 : t 0 = leafSum m t) :
    nodeInv m (ups.foldl (fun t ip => treeUpdate1 t ip.1 ip.2) t)
      ∧ (ups.foldl (fun t ip => treeUpdate1 t ip.1 ip.2) t) 0
        = leafSum m (ups.foldl (fun t ip => treeUpdate1 t ip.1 ip.2) t) := by
  induction ups generalizing t with
  | nil => exact ⟨h1, h2⟩
  | cons ip rest ih =>
    have hip := hv ip (List.mem_cons_self _ _)
    simp only [List.foldl_cons]
    exact ih (treeUpdate1 t ip.1 ip.2)
      (fun q hq => hv q (List.mem_cons_of_mem _ hq))
      (treeUpdate1_nodeInv m t ip.1 ip.2 hm hip.1 h1)
      (treeUpdate1_rootEq m t ip.1 ip.2 hm hip.1 hip.2 h2)

theorem update_inv {α : Type} (st : SumTree α) (ups : List (ℕ × ℚ))
    (hm : 2 ≤ st.max_size)
    (hv : ∀ ip ∈ ups, st.max_size - 1 ≤ ip.1 ∧ ip.1 < 2 * st.max_size - 1)
    (h : st.Inv) :
    (st.update ups).Inv ∧ (st.update ups).max_size = st.max_size := by
  obtain ⟨ha, hb, hc⟩ := h
  have := foldUpdate_inv st.max_size hm ups st.tree hv hb hc
  exact ⟨⟨ha, this.1, this.2⟩, rfl⟩

theorem add1_inv {α : Type} (st : SumTree α) (d : α) (p : ℚ)
    (hm : 2 ≤ st.max_size) (h : st.Inv) :
    (st.add1 d p).Inv ∧ (st.add1 d p).max_size = st.max_size := by
  obtain ⟨ha, hb, hc⟩ := h
  have hi1 : st.max_size - 1 ≤ st.idx + st.max_size - 1 := by omega
  have hi2 : st.idx + st.max_size - 1 < 2 * st.max_size - 1 := by omega
  have hn := treeUpdate1_nodeInv st.max_size st.tree _ p hm hi1 hb
  have hr := treeUpdate1_rootEq st.max_size st.tree _ p hm hi1 hi2 hc
  unfold SumTree.add1
  split_ifs with hwrap
  · exact ⟨⟨(by omega : (0 : ℕ) < st.max_size), hn, hr⟩, rfl⟩
  · exact ⟨⟨(by omega : st.idx + 1 < st.max_size), hn, hr⟩, rfl⟩

theorem add_inv {α : Type} (st : SumTree α) (ds : List (α × ℚ))
    (hm : 2 ≤ st.max_size) (h : st.Inv) :
    (st.add ds).Inv ∧ (st.add ds).max_size = st.max_size := by
  induction ds generalizing st with
  | nil => exact ⟨h, rfl⟩
  | cons dp rest ih =>
    simp only [SumTree.add, List.foldl_cons] at *
    have h1 := add1_inv st dp.1 dp.2 hm h
    have := ih (st.add1 dp.1 dp.2) (h1.2 ▸ hm) h1.1
    exact ⟨this.1, this.2.trans h1.2⟩

theorem applyOp_inv {α : Type} (st : SumTree α) (op : SumTreeOp α)
    (hm : 2 ≤ st.max_size) (hv : validOp st.max_size op) (h : st.Inv) :
    (st.applyOp op).Inv ∧ (st.applyOp op).max_size = st.max_size := by
  cases op with
  | add ds => exact add_inv st ds hm h
  | upd ups => exact update_inv st ups hm hv h

theorem run_inv {α : Type} (m : ℕ) (hm : 2 ≤ m) (ops : List (SumTreeOp α))
    (hv : ∀ op ∈ ops, validOp m op) :
    (SumTree.run α m ops).Inv ∧ (SumTree.run α m ops).max_size = m := by
  have hinit : (SumTree.init α m).Inv := by
    refine ⟨by simp [SumTree.init]; omega, ?_, ?_⟩
    · intro i hi; simp [SumTree.init]
    · simp [SumTree.init, leafSum]
  unfold SumTree.run
  have main : ∀ (l : List (SumTreeOp α)) (st : SumTree α), st.Inv → st.max_size = m →
      (∀ op ∈ l, validOp m op) →
      (l.foldl SumTree.applyOp st).Inv ∧ (l.foldl SumTree.applyOp st).max_size = m := by
    intro l
    induction l with
    | nil => intro st h1 h2 _; exact ⟨h1, h2⟩
    | cons op rest ih =>
      intro st h1 h2 h3
      simp only [List.foldl_cons]
      have hop := applyOp_inv st op (by omega) (h2 ▸ h3 op (List.mem_cons_self _ _)) h1
      exact ih (st.applyOp op) hop.1 (hop.2.trans h2)
        (fun q hq => h3 q (List.mem_cons_of_mem _ hq))
  exact main ops (SumTree.init α m) hinit rfl hv

/-- C1: for every SumTree with max_size at least 2, after any sequence of
add and update operations (each update on valid leaf indices), every
internal node's value equals the sum of its two children, and total_p
(the root) equals the exact sum of all leaf values. -/
theorem c1_sum_tree_invariant {α : Type} (m : ℕ) (hm : 2 ≤ m)
    (ops : List (SumTreeOp α)) (hv : ∀ op ∈ ops, validOp m op) :
    nodeInv m (SumTree.run α m ops).tree
      ∧ (SumTree.run α m ops).totalP = leafSum m (SumTree.run α m ops).tree := by
  obtain ⟨⟨h1, h2, h3⟩, h4⟩ := run_inv m hm ops hv
  rw [h4] at h2 h3
  exact ⟨h2, h3⟩

/-- Witness for C1 at a concrete capacity and operation sequence. -/
theorem c1_sum_tree_invariant_witness :
    (2 ≤ 2) ∧
    nodeInv 2 (SumTree.run ℚ 2 [.add [(5, 3)], .upd [(1, 7)]]).tree
      ∧ (SumTree.run ℚ 2 [.add [(5, 3)], .upd [(1, 7)]]).totalP
        = leafSum 2 (SumTree.run ℚ 2 [.add [(5, 3)], .upd [(1, 7)]]).tree := by
  refine ⟨by norm_num, c1_sum_tree_invariant 2 (by norm_num) _ ?_⟩
  intro op hop
  simp only [List.mem_cons, List.not_mem_nil, or_false] at hop
  rcases hop with rfl | rfl
  · trivial
  · intro ip hip
    simp only [List.mem_singleton] at hip
    subst hip
    exact ⟨by norm_num, by norm_num⟩

theorem nodeInv_subtreeSum (m : ℕ) (t : ℕ → ℚ) (hInv : nodeInv m t) :
    ∀ idx, idx < 2 * m - 1 → t idx = subtreeSum m t idx := by
  intro idx
  induction idx using subtreeSum.induct m t with
  | case1 idx hleaf =>
    intro hidx
    rw [subtreeSum, if_pos hleaf]
  | case2 idx hleaf ih1 ih2 =>
    intro hidx
    rw [subtreeSum, if_neg hleaf]
    have hint : idx < m - 1 := by omega
    have h1 : 2 * idx + 1 < 2 * m - 1 := by omega
    have h2 : 2 * idx + 2 < 2 * m - 1 := by omega
    rw [← ih1 h1, ← ih2 h2]
    exact hInv idx hint

theorem iterate_parentIdx_le (k i : ℕ) : parentIdx^[k] i ≤ i := by
  induction k generalizing i with
  | zero => simp
  | succ k ih =>
    rw [Function.iterate_succ_apply]
    have h1 : parentIdx i ≤ i := by unfold parentIdx; omega
    exact le_trans (ih (parentIdx i)) h1

theorem iterate_le_parentIdx (k i : ℕ) (hk : 1 ≤ k) :
    parentIdx^[k] i ≤ parentIdx i := by
  obtain ⟨j, rfl⟩ : ∃ j, k = j + 1 := ⟨k - 1, by omega⟩
  rw [Function.iterate_succ_apply]
  exact iterate_parentIdx_le j (parentIdx i)

/-- Iterating the parent map `k` times is one parent step after `k - 1`. -/
theorem iterate_pred_parentIdx (k L : ℕ) (hk : 1 ≤ k) :
    parentIdx (parentIdx^[k - 1] L) = parentIdx^[k] L := by
  conv_rhs => rw [show k = (k - 1) + 1 by omega]
  rw [Function.iterate_succ_apply']

/-- At an internal node on the ancestor chain of `L` (with `idx` different
from `L`), exactly one child continues the chain. -/
theorem anc_step (L idx : ℕ) (hne : idx ≠ L) (hanc : Anc L idx) :
    ∃ c, parentIdx c = idx ∧ 1 ≤ c ∧ Anc L c ∧
      (∀ c2, parentIdx c2 = idx → 1 ≤ c2 → c2 ≠ c → ¬ Anc L c2) := by
  have hex : ∃ k, parentIdx^[k] L = idx := hanc
  classical
  let k0 := Nat.find hex
  have hk0 : parentIdx^[k0] L = idx := Nat.find_spec hex
  have hk0min : ∀ j, j < k0 → parentIdx^[j] L ≠ idx := fun j hj => Nat.find_min hex hj
  have hk0pos : 1 ≤ k0 := by
    rcases Nat.eq_zero_or_pos k0 with h | h
    · exfalso; apply hne; rw [h] at hk0; simpa using hk0.symm
    · exact h
  have hcpar : parentIdx (parentIdx^[k0 - 1] L) = idx := by
    rw [iterate_pred_parentIdx k0 L hk0pos]; exact hk0
  have hcpos : 1 ≤ parentIdx^[k0 - 1] L := by
    by_contra h0
    push_neg at h0
    have hz : parentIdx^[k0 - 1] L = 0 := by omega
    have hpz : parentIdx 0 = 0 := by unfold parentIdx; omega
    have hidx0 : idx = 0 := by rw [← hcpar, hz, hpz]
    exact hk0min (k0 - 1) (by omega) (by rw [hz, hidx0])
  refine ⟨parentIdx^[k0 - 1] L, hcpar, hcpos, ⟨k0 - 1, rfl⟩, ?_⟩
  rintro c2 hc2par hc2pos hc2ne ⟨b, hb⟩
  have hbne : b ≠ k0 - 1 := fun h => hc2ne (by rw [← hb, h])
  rcases Nat.lt_or_ge b (k0 - 1) with hlt | hge
  · -- the chain from c2 reaches the chosen child after at least one step
    have hcomp : parentIdx^[k0 - 1] L = parentIdx^[(k0 - 1 - b) + b] L := by
      congr 1; omega
    rw [Function.iterate_add_apply, hb] at hcomp
    have hle : parentIdx^[k0 - 1 - b] c2 ≤ parentIdx c2 :=
      iterate_le_parentIdx (k0 - 1 - b) c2 (by omega)
    rw [hc2par] at hle
    have hcle : parentIdx^[k0 - 1] L ≤ idx := by rw [hcomp]; exact hle
    have hdiv : (parentIdx^[k0 - 1] L - 1) / 2 = idx := hcpar
    omega
  · -- b is at least k0: the chain value has already passed below idx
    have hcomp : parentIdx^[b] L = parentIdx^[(b - k0) + k0] L := by
      congr 1; omega
    rw [Function.iterate_add_apply, hk0] at hcomp
    have hle : parentIdx^[b - k0] idx ≤ idx := iterate_parentIdx_le _ _
    rw [hcomp] at hb
    have hc2le : c2 ≤ idx := by rw [← hb]; exact hle
    have hdiv : (c2 - 1) / 2 = idx := hc2par
    omega

theorem parentIdx_reaches_zero (idx : ℕ) (h : 1 ≤ idx) :
    ∃ k, 1 ≤ k ∧ parentIdx^[k] idx = 0 := by
  induction idx using Nat.strong_induction_on with
  | _ idx ih =>
    by_cases hz : parentIdx idx = 0
    · exact ⟨1, le_refl 1, by simpa [Function.iterate_one] using hz⟩
    · have hlt : parentIdx idx < idx := by unfold parentIdx at *; omega
      have hpos : 1 ≤ parentIdx idx := by omega
      obtain ⟨k, hk1, hk2⟩ := ih (parentIdx idx) hlt hpos
      exact ⟨k + 1, by omega, by rw [Function.iterate_succ_apply]; exact hk2⟩

theorem anc_leaf_eq (m L idx : ℕ) (hm : 2 ≤ m) (hL2 : L < 2 * m - 1)
    (hidx : m - 1 ≤ idx) (hanc : Anc L idx) : idx = L := by
  obtain ⟨k, hk⟩ := hanc
  rcases Nat.eq_zero_or_pos k with h | h
  · rw [h] at hk; simpa using hk.symm
  · exfalso
    have hle : parentIdx^[k] L ≤ parentIdx L := iterate_le_parentIdx k L h
    rw [hk] at hle
    have hparL : parentIdx L = (L - 1) / 2 := rfl
    omega

theorem subtreeSum_single (m : ℕ) (t : ℕ → ℚ) (L : ℕ) (v : ℚ) (hm : 2 ≤ m)
    (hL1 : m - 1 ≤ L) (hL2 : L < 2 * m - 1)
    (hshape : ∀ j, m - 1 ≤ j → j < 2 * m - 1 → t j = if j = L then v else 0) :
    ∀ idx, idx < 2 * m - 1 →
      (Anc L idx → subtreeSum m t idx = v)
        ∧ (¬ Anc L idx → subtreeSum m t idx = 0) := by
  intro idx
  induction idx using subtreeSum.induct m t with
  | case1 idx hleaf =>
    intro hidx
    rw [subtreeSum, if_pos hleaf]
    have hge : m - 1 ≤ idx := by omega
    rw [hshape idx hge hidx]
    constructor
    · intro hanc
      rw [if_pos (anc_leaf_eq m L idx hm hL2 hge hanc)]
    · intro hnanc
      have hne : idx ≠ L := fun h => hnanc ⟨0, by simpa using h.symm⟩
      rw [if_neg hne]
  | case2 idx hleaf ih1 ih2 =>
    intro hidx
    have hint : idx < m - 1 := by omega
    have h1 : 2 * idx + 1 < 2 * m - 1 := by omega
    have h2 : 2 * idx + 2 < 2 * m - 1 := by omega
    have hneL : idx ≠ L := by omega
    rw [subtreeSum, if_neg hleaf]
    constructor
    · intro hanc
      obtain ⟨c, hcpar, hcpos, hcanc, huniq⟩ := anc_step L idx hneL hanc
      have hchild : c = 2 * idx + 1 ∨ c = 2 * idx + 2 := by
        have hdiv : (c - 1) / 2 = idx := hcpar
        omega
      rcases hchild with rfl | rfl
      · have hnr : ¬ Anc L (2 * idx + 2) :=
          huniq (2 * idx + 2) (by unfold parentIdx; omega) (by omega) (by omega)
        rw [(ih1 h1).1 hcanc, (ih2 h2).2 hnr, add_zero]
      · have hnl : ¬ Anc L (2 * idx + 1) :=
          huniq (2 * idx + 1) (by unfold parentIdx; omega) (by omega) (by omega)
        rw [(ih1 h1).2 hnl, (ih2 h2).1 hcanc, zero_add]
    · intro hnanc
      have hstep : ∀ c, parentIdx c = idx → Anc L c → Anc L idx := by
        rintro c hc ⟨k, hk⟩
        exact ⟨k + 1, by rw [Function.iterate_succ_apply', hk, hc]⟩
      have hnl : ¬ Anc L (2 * idx + 1) := fun h =>
        hnanc (hstep _ (by unfold parentIdx; omega) h)
      have hnr : ¬ Anc L (2 * idx + 2) := fun h =>
        hnanc (hstep _ (by unfold parentIdx; omega) h)
      rw [(ih1 h1).2 hnl, (ih2 h2).2 hnr, add_zero]

theorem chain_children (m : ℕ) (t : ℕ → ℚ) (L : ℕ) (hm : 2 ≤ m)
    (hL1 : m - 1 ≤ L) (hL2 : L < 2 * m - 1) (hInv : nodeInv m t)
    (hshape : ∀ j, m - 1 ≤ j → j < 2 * m - 1 → t j = if j = L then 10 else 0)
    (idx : ℕ) (hidx : idx < 2 * m - 1) (hleaf : ¬ (2 * m - 1 ≤ 2 * idx + 1))
    (hanc : Anc L idx) :
    (t (2 * idx + 1) = 10 ∧ t (2 * idx + 2) = 0 ∧ Anc L (2 * idx + 1))
      ∨ (t (2 * idx + 1) = 0 ∧ t (2 * idx + 2) = 10 ∧ Anc L (2 * idx + 2)) := by
  have h1 : 2 * idx + 1 < 2 * m - 1 := by omega
  have h2 : 2 * idx + 2 < 2 * m - 1 := by omega
  have hint : idx < m - 1 := by omega
  have hneL : idx ≠ L := by omega
  have hsub := subtreeSum_single m t L 10 hm hL1 hL2 hshape
  have hvl : t (2 * idx + 1) = subtreeSum m t (2 * idx + 1) :=
    nodeInv_subtreeSum m t hInv _ h1
  have hvr : t (2 * idx + 2) = subtreeSum m t (2 * idx + 2) :=
    nodeInv_subtreeSum m t hInv _ h2
  obtain ⟨c, hcpar, hcpos, hcanc, huniq⟩ := anc_step L idx hneL hanc
  have hchild : c = 2 * idx + 1 ∨ c = 2 * idx + 2 := by
    have hdiv : (c - 1) / 2 = idx := hcpar
    omega
  rcases hchild with rfl | rfl
  · left
    have hnr : ¬ Anc L (2 * idx + 2) :=
      huniq (2 * idx + 2) (by unfold parentIdx; omega) (by omega) (by omega)
    exact ⟨by rw [hvl]; exact (hsub _ h1).1 hcanc,
           by rw [hvr]; exact (hsub _ h2).2 hnr, hcanc⟩
  · right
    have hnl : ¬ Anc L (2 * idx + 1) :=
      huniq (2 * idx + 1) (by unfold parentIdx; omega) (by omega) (by omega)
    exact ⟨by rw [hvl]; exact (hsub _ h1).2 hnl,
           by rw [hvr]; exact (hsub _ h2).1 hcanc, hcanc⟩

theorem retrieve_isLeaf (m : ℕ) (hm : 1 ≤ m) (t : ℕ → ℚ) (coin : ℕ → Bool) :
    ∀ (n : ℕ) (s : ℚ) (idx : ℕ), idx < 2 * m - 1 →
      m - 1 ≤ retrieve m t coin n s idx ∧ retrieve m t coin n s idx < 2 * m - 1 := by
  intro n s idx
  induction n, s, idx using retrieve.induct m t coin with
  | case1 n s idx hleaf =>
    intro hidx
    rw [retrieve, if_pos hleaf]
    omega
  | case2 n s idx hleaf htie hcoin ih =>
    intro hidx
    rw [retrieve, if_neg hleaf, if_pos htie, if_pos hcoin]
    exact ih (by omega)
  | case3 n s idx hleaf htie hcoin ih =>
    intro hidx
    rw [retrieve, if_neg hleaf, if_pos htie, if_neg hcoin]
    exact ih (by omega)
  | case4 n s idx hleaf htie hs ih =>
    intro hidx
    rw [retrieve, if_neg hleaf, if_neg htie, if_pos hs]
    exact ih (by omega)
  | case5 n s idx hleaf htie hs ih =>
    intro hidx
    rw [retrieve, if_neg hleaf, if_neg htie, if_neg hs]
    exact ih (by omega)

theorem retrieve_single_source (m : ℕ) (t : ℕ → ℚ) (L : ℕ) (coin : ℕ → Bool)
    (hm : 2 ≤ m) (hL1 : m - 1 ≤ L) (hL2 : L < 2 * m - 1) (hInv : nodeInv m t)
    (hshape : ∀ j, m - 1 ≤ j → j < 2 * m - 1 → t j = if j = L then 10 else 0) :
    ∀ (n : ℕ) (s : ℚ) (idx : ℕ), idx < 2 * m - 1 → Anc L idx →
      0 < s → s < 10 → retrieve m t coin n s idx = L := by
  intro n s idx
  induction n, s, idx using retrieve.induct m t coin with
  | case1 n s idx hleaf =>
    intro hidx hanc _ _
    rw [retrieve, if_pos hleaf]
    exact anc_leaf_eq m L idx hm hL2 (by omega) hanc
  | case2 n s idx hleaf htie hcoin ih =>
    intro hidx hanc hs0 hs10
    exfalso
    rcases chain_children m t L hm hL1 hL2 hInv hshape idx hidx hleaf hanc with
      ⟨ha, hb, _⟩ | ⟨ha, hb, _⟩ <;> rw [ha, hb] at htie <;> norm_num at htie
  | case3 n s idx hleaf htie hcoin ih =>
    intro hidx hanc hs0 hs10
    exfalso
    rcases chain_children m t L hm hL1 hL2 hInv hshape idx hidx hleaf hanc with
      ⟨ha, hb, _⟩ | ⟨ha, hb, _⟩ <;> rw [ha, hb] at htie <;> norm_num at htie
  | case4 n s idx hleaf htie hs ih =>
    intro hidx hanc hs0 hs10
    rw [retrieve, if_neg hleaf, if_neg htie, if_pos hs]
    rcases chain_children m t L hm hL1 hL2 hInv hshape idx hidx hleaf hanc with
      ⟨ha, hb, hancl⟩ | ⟨ha, hb, hancr⟩
    · exact ih (by omega) hancl hs0 hs10
    · rw [ha] at hs; linarith
  | case5 n s idx hleaf htie hs ih =>
    intro hidx hanc hs0 hs10
    rw [retrieve, if_neg hleaf, if_neg htie, if_neg hs]
    rcases chain_children m t L hm hL1 hL2 hInv hshape idx hidx hleaf hanc with
      ⟨ha, hb, hancl⟩ | ⟨ha, hb, hancr⟩
    · rw [ha] at hs; exfalso; exact hs (by linarith)
    · have ih2 := ih (by omega) hancr
      rw [ha, sub_zero] at ih2 ⊢
      exact ih2 hs0 hs10

/-- C3 (amended): for every heap array satisfying the node invariant whose
leaves hold a single nonzero value 10 at leaf `L` and 0 elsewhere, and for
every sample value `s` strictly between 0 and 10, `_retrieve` from the
root returns the nonzero leaf for every outcome of the random
tie-breaking.  (At the boundary `s = 0` the descent can enter a zero-mass
subtree, see the counterexample.) -/
theorem c3_weighted_sampling_amended (m : ℕ) (t : ℕ → ℚ) (L : ℕ)
    (coin : ℕ → Bool) (n : ℕ) (s : ℚ) (hm : 2 ≤ m) (hL1 : m - 1 ≤ L)
    (hL2 : L < 2 * m - 1) (hInv : nodeInv m t)
    (hshape : ∀ j, m - 1 ≤ j → j < 2 * m - 1 → t j = if j = L then 10 else 0)
    (hs0 : 0 < s) (hs10 : s < 10) :
    retrieve m t coin n s 0 = L := by
  obtain ⟨k, hk1, hk2⟩ := parentIdx_reaches_zero L (by omega)
  exact retrieve_single_source m t L coin hm hL1 hL2 hInv hshape n s 0
    (by omega) ⟨k, hk2⟩ hs0 hs10

/-- Witness for the amended C3 at a concrete tree with three leaves. -/
theorem c3_weighted_sampling_amended_witness :
    nodeInv 3 (fun j => if j = 0 then 10 else if j = 2 then (10 : ℚ) else 0)
    ∧ retrieve 3 (fun j => if j = 0 then 10 else if j = 2 then (10 : ℚ) else 0)
        (fun _ => true) 0 5 0 = 2 := by
  have hInv : nodeInv 3 (fun j => if j = 0 then 10 else if j = 2 then (10 : ℚ) else 0) := by
    intro i hi
    interval_cases i <;> norm_num
  refine ⟨hInv, c3_weighted_sampling_amended 3 _ 2 (fun _ => true) 0 5
    (by norm_num) (by norm_num) (by norm_num) hInv ?_ (by norm_num) (by norm_num)⟩
  intro j h1 h2
  interval_cases j <;> norm_num

theorem exTree3_tree_eval :
    exTree3.tree = Function.update (Function.update (fun _ => (0 : ℚ)) 2 10) 0 10 := by
  show treeUpdate1 (fun _ => (0 : ℚ)) 2 10 = _
  unfold treeUpdate1
  rw [propagate]
  norm_num [parentIdx]

/-- C3 counterexample: on the tree with leaves {10, 0, 0} (three leaves,
single nonzero leaf at heap index 2), the sample value s = 0 lies in
[0, 10) and yet `_retrieve` from the root returns the zero leaf at heap
index 3, not the nonzero leaf. -/
theorem c3_weighted_sampling_counterexample :
    exTree3.max_size = 3
    ∧ exTree3.tree 2 = 10 ∧ exTree3.tree 3 = 0 ∧ exTree3.tree 4 = 0
    ∧ (0 : ℚ) < 10
    ∧ (exTree3.get (fun _ => true) 0).1 = 3
    ∧ exTree3.tree 3 ≠ 10 := by
  have hmax : exTree3.max_size = 3 := rfl
  refine ⟨hmax, ?_, ?_, ?_, by norm_num, ?_, ?_⟩
  · rw [exTree3_tree_eval]; simp [Function.update]
  · rw [exTree3_tree_eval]; simp [Function.update]
  · rw [exTree3_tree_eval]; simp [Function.update]
  · show retrieve 3 exTree3.tree (fun _ => true) 0 0 0 = 3
    rw [exTree3_tree_eval]
    rw [retrieve]
    norm_num [Function.update]
    rw [retrieve]
    norm_num [Function.update]
    rw [retrieve]
    norm_num
  · rw [exTree3_tree_eval]; simp [Function.update]

/-- C8 (amended): `SumTree.get` and `_retrieve` perform no range check:
for any sample value s outside [0, total_p), the call silently returns a
leaf index (an index in the leaf range of the heap array) rather than
raising an error. -/
theorem c8_out_of_range_silently_returns_leaf {α : Type} (st : SumTree α)
    (coin : ℕ → Bool) (s : ℚ) (hm : 1 ≤ st.max_size)
    (hs : s < 0 ∨ st.totalP ≤ s) :
    st.max_size - 1 ≤ (st.get coin s).1
      ∧ (st.get coin s).1 < 2 * st.max_size - 1 := by
  exact retrieve_isLeaf st.max_size hm st.tree coin 0 s 0 (by omega)

/-- Witness for the amended C8 on a freshly constructed tree. -/
theorem c8_out_of_range_silently_returns_leaf_witness :
    (1 ≤ (SumTree.init ℚ 2).max_size)
    ∧ ((SumTree.init ℚ 2).totalP ≤ 100)
    ∧ (SumTree.init ℚ 2).max_size - 1 ≤ ((SumTree.init ℚ 2).get (fun _ => true) 100).1
    ∧ ((SumTree.init ℚ 2).get (fun _ => true) 100).1 < 2 * (SumTree.init ℚ 2).max_size - 1 := by
  have h1 : 1 ≤ (SumTree.init ℚ 2).max_size := by norm_num [SumTree.init]
  have h2 : (SumTree.init ℚ 2).totalP ≤ 100 := by norm_num [SumTree.init, SumTree.totalP]
  have := c8_out_of_range_silently_returns_leaf (SumTree.init ℚ 2) (fun _ => true) 100
    h1 (Or.inr h2)
  exact ⟨h1, h2, this.1, this.2⟩

theorem exTree2_tree_eval :
    exTree2.tree = Function.update (Function.update (fun _ => (0 : ℚ)) 1 8) 0 8 := by
  show treeUpdate1 (fun _ => (0 : ℚ)) 1 8 = _
  unfold treeUpdate1
  rw [propagate]
  norm_num [parentIdx]

/-- C8 counterexample: on a tree with total priority 8, the out-of-range
sample value s = 100 raises no error: the code silently returns the leaf
at heap index 2 (an index passing the leaf test of `_retrieve`). -/
theorem c8_counterexample :
    exTree2.totalP = 8
    ∧ (exTree2.get (fun _ => true) 100).1 = 2
    ∧ 2 * exTree2.max_size - 1 ≤ 2 * (exTree2.get (fun _ => true) 100).1 + 1 := by
  have htot : exTree2.totalP = 8 := by
    show exTree2.tree 0 = 8
    rw [exTree2_tree_eval]
    simp [Function.update]
  have hret : (exTree2.get (fun _ => true) 100).1 = 2 := by
    show retrieve 2 exTree2.tree (fun _ => true) 0 100 0 = 2
    rw [exTree2_tree_eval]
    rw [retrieve]
    norm_num [Function.update]
    rw [retrieve]
    norm_num
  have hms : exTree2.max_size = 2 := rfl
  exact ⟨htot, hret, by rw [hret, hms]; norm_num⟩

theorem pyParent_iterate_zero (k : ℕ) (hk : 1 ≤ k) : pyParent^[k] (0 : ℤ) = -1 := by
  induction k with
  | zero => omega
  | succ k ih =>
    rcases Nat.eq_zero_or_pos k with h | h
    · subst h
      decide
    · rw [Function.iterate_succ_apply', ih h]
      decide

/-- C10: for a tree with max_size at least 2, propagation from any valid
leaf index terminates, the parent chain reaching the root at index 0;
retrieval descends to an index in the leaf range from any start node;
and for max_size = 1 (leaf index 0) Python's integer parent chain (floor
division) is constantly -1, never meeting the stop condition parent = 0,
so the max_size at least 2 hypothesis is required. -/
theorem c10_termination (m idx : ℕ) (hm : 2 ≤ m)
    (hleaf1 : m - 1 ≤ idx) (hleaf2 : idx < 2 * m - 1) :
    (∃ k, 1 ≤ k ∧ parentIdx^[k] idx = 0)
    ∧ (∀ (t : ℕ → ℚ) (coin : ℕ → Bool) (n : ℕ) (s : ℚ) (j : ℕ), j < 2 * m - 1 →
        m - 1 ≤ retrieve m t coin n s j ∧ retrieve m t coin n s j < 2 * m - 1)
    ∧ (∀ k, 1 ≤ k → pyParent^[k] 0 = -1 ∧ pyParent^[k] 0 ≠ 0) := by
  refine ⟨parentIdx_reaches_zero idx (by omega), ?_, ?_⟩
  · intro t coin n s j hj
    exact retrieve_isLeaf m (by omega) t coin n s j hj
  · intro k hk
    refine ⟨pyParent_iterate_zero k hk, ?_⟩
    rw [pyParent_iterate_zero k hk]
    decide

/-- Witness for C10 at the smallest valid capacity. -/
theorem c10_termination_witness :
    (∃ k, 1 ≤ k ∧ parentIdx^[k] 1 = 0)
    ∧ (∀ k, 1 ≤ k → pyParent^[k] 0 = -1 ∧ pyParent^[k] 0 ≠ 0) := by
  have h := c10_termination 2 1 (by norm_num) (by norm_num) (by norm_num)
  exact ⟨h.1, h.2.2⟩

theorem foldl_max_le_acc (l : List ℚ) (a : ℚ) : a ≤ l.foldl max a := by
  induction l generalizing a with
  | nil => simp
  | cons x xs ih => exact le_trans (le_max_left a x) (ih (max a x))

theorem foldl_max_mem_le (l : List ℚ) (a x : ℚ) (hx : x ∈ l) : x ≤ l.foldl max a := by
  induction l generalizing a with
  | nil => cases hx
  | cons y ys ih =>
    rcases List.mem_cons.mp hx with rfl | h
    · exact le_trans (le_max_right a x) (foldl_max_le_acc ys (max a x))
    · exact ih (max a y) h

theorem foldl_max_le_bound (l : List ℚ) (a b : ℚ) (ha : a ≤ b)
    (h : ∀ x ∈ l, x ≤ b) : l.foldl max a ≤ b := by
  induction l generalizing a with
  | nil => exact ha
  | cons y ys ih =>
    exact ih (max a y) (max_le ha (h y (List.mem_cons_self _ _)))
      (fun x hx => h x (List.mem_cons_of_mem _ hx))

theorem foldl_max_eq_acc_or_mem (l : List ℚ) (a : ℚ) :
    l.foldl max a = a ∨ l.foldl max a ∈ l := by
  induction l generalizing a with
  | nil => left; rfl
  | cons y ys ih =>
    simp only [List.foldl_cons]
    rcases ih (max a y) with h | h
    · rcases le_total y a with hy | hy
      · left; rw [h, max_eq_left hy]
      · right; rw [h, max_eq_right hy]; exact List.mem_cons_self _ _
    · right; exact List.mem_cons_of_mem _ h

theorem le_npMax (l : List ℚ) (x : ℚ) (hx : x ∈ l) : x ≤ npMax l := by
  cases l with
  | nil => cases hx
  | cons y ys =>
    rcases List.mem_cons.mp hx with rfl | h
    · exact foldl_max_le_acc ys x
    · exact foldl_max_mem_le ys y x h

theorem npMax_mem (l : List ℚ) (hl : l ≠ []) : npMax l ∈ l := by
  cases l with
  | nil => exact absurd rfl hl
  | cons y ys =>
    rcases foldl_max_eq_acc_or_mem ys y with h | h
    · rw [npMax, h]; exact List.mem_cons_self _ _
    · rw [npMax]; exact List.mem_cons_of_mem _ h

theorem npMax_le (l : List ℚ) (b : ℚ) (hl : l ≠ []) (h : ∀ x ∈ l, x ≤ b) :
    npMax l ≤ b := by
  cases l with
  | nil => exact absurd rfl hl
  | cons y ys =>
    exact foldl_max_le_bound ys y b (h y (List.mem_cons_self _ _))
      (fun x hx => h x (List.mem_cons_of_mem _ hx))

/-- C7 (amended): `SumTree.max_p` is the numpy maximum over the entire
leaf slice `tree[-max_size:]`, never-written slots included; whenever the
tree is non-empty and every populated leaf priority is nonnegative (the
only priorities `PrioritizedReplayMemory` produces) while the unpopulated
slots still hold their initial 0, this value coincides with the maximum
over the populated leaves only. -/
theorem c7_maxp_amended {α : Type} (st : SumTree α)
    (hsz : 1 ≤ st.size) (hszle : st.size ≤ st.max_size)
    (hzero : ∀ j, st.size ≤ j → j < st.max_size → st.tree (st.max_size - 1 + j) = 0)
    (hnn : ∀ j, j < st.size → 0 ≤ st.tree (st.max_size - 1 + j)) :
    st.maxP = st.maxPopulated := by
  have hpop_ne :
      (List.range st.size).map (fun j => st.tree (st.max_size - 1 + j)) ≠ [] := by
    simp only [ne_eq, List.map_eq_nil_iff, List.range_eq_nil]
    omega
  have hpop_nonneg :
      0 ≤ npMax ((List.range st.size).map (fun j => st.tree (st.max_size - 1 + j))) := by
    have h0 : st.tree (st.max_size - 1 + 0)
        ∈ (List.range st.size).map (fun j => st.tree (st.max_size - 1 + j)) :=
      List.mem_map.mpr ⟨0, List.mem_range.mpr (by omega), rfl⟩
    exact le_trans (hnn 0 (by omega)) (le_npMax _ _ h0)
  unfold SumTree.maxP SumTree.maxPopulated
  apply le_antisymm
  · apply npMax_le
    · simp only [ne_eq, List.map_eq_nil_iff, List.range_eq_nil]
      omega
    · intro x hx
      obtain ⟨j, hj, rfl⟩ := List.mem_map.mp hx
      have hjm := List.mem_range.mp hj
      by_cases hjs : j < st.size
      · exact le_npMax _ _ (List.mem_map.mpr ⟨j, List.mem_range.mpr hjs, rfl⟩)
      · have h0 : st.tree (st.max_size - 1 + j) = 0 := hzero j (by omega) hjm
        rw [h0]
        exact hpop_nonneg
  · apply npMax_le _ _ hpop_ne
    intro x hx
    obtain ⟨j, hj, rfl⟩ := List.mem_map.mp hx
    have hjm := List.mem_range.mp hj
    exact le_npMax _ _ (List.mem_map.mpr ⟨j, List.mem_range.mpr (by omega), rfl⟩)

/-- Witness for the amended C7 on a two-leaf tree with one populated
nonnegative priority. -/
theorem c7_maxp_amended_witness :
    (1 ≤ exTree2.size) ∧ (exTree2.size ≤ exTree2.max_size)
    ∧ exTree2.maxP = exTree2.maxPopulated := by
  have hsz : exTree2.size = 1 := rfl
  have hms : exTree2.max_size = 2 := rfl
  refine ⟨by rw [hsz], by rw [hsz, hms]; norm_num, ?_⟩
  apply c7_maxp_amended exTree2 (by rw [hsz]) (by rw [hsz, hms]; norm_num)
  · intro j h1 h2
    rw [hsz] at h1
    rw [hms] at h2 ⊢
    interval_cases j
    · rw [exTree2_tree_eval]; simp [Function.update]
  · intro j h1
    rw [hsz] at h1
    rw [hms]
    interval_cases j
    · rw [exTree2_tree_eval]; norm_num [Function.update]

theorem exTree2Neg_tree_eval :
    exTree2Neg.tree = Function.update (Function.update (fun _ => (0 : ℚ)) 1 (-5)) 0 (-5) := by
  show treeUpdate1 (fun _ => (0 : ℚ)) 1 (-5) = _
  unfold treeUpdate1
  rw [propagate]
  norm_num [parentIdx]

/-- C7 counterexample: a non-empty, non-full tree whose single populated
leaf holds -5; `max_p` reports 0, the value of a never-written leaf slot,
so it is not computed over the populated leaves only. -/
theorem c7_counterexample :
    exTree2Neg.size = 1 ∧ exTree2Neg.size < exTree2Neg.max_size
    ∧ exTree2Neg.maxP = 0 ∧ exTree2Neg.maxPopulated = -5
    ∧ exTree2Neg.maxP ≠ exTree2Neg.maxPopulated := by
  have hsz : exTree2Neg.size = 1 := rfl
  have hms : exTree2Neg.max_size = 2 := rfl
  have hmaxp : exTree2Neg.maxP = 0 := by
    unfold SumTree.maxP
    rw [exTree2Neg_tree_eval, hms]
    norm_num [List.range_succ, npMax, Function.update]
  have hmaxpop : exTree2Neg.maxPopulated = -5 := by
    unfold SumTree.maxPopulated
    rw [exTree2Neg_tree_eval, hms, hsz]
    norm_num [List.range_succ, npMax, Function.update]
  exact ⟨hsz, by rw [hsz, hms]; norm_num, hmaxp, hmaxpop,
    by rw [hmaxp, hmaxpop]; norm_num⟩

/-- C4: on a batch of sampled priorities that are all positive, each
returned weight equals `(size * priority / total_p) ^ (-beta)` divided by
the batch maximum of those values, the maximum of the returned weights is
exactly 1, and every returned weight is nonnegative. -/
theorem c4_importance_weights (beta : ℤ) (size : ℕ) (totalP : ℚ)
    (ps : List ℚ) (hne : ps ≠ []) (hpos : ∀ p ∈ ps, 0 < p)
    (htot : 0 < totalP) (hsz : 1 ≤ size) :
    isWeights beta size totalP ps
      = ps.map (fun p => ((size : ℚ) * p / totalP) ^ (-beta)
          / npMax (ps.map (fun q => ((size : ℚ) * (q / totalP)) ^ (-beta))))
    ∧ npMax (isWeights beta size totalP ps) = 1
    ∧ (∀ w ∈ isWeights beta size totalP ps, 0 ≤ w) := by
  have hraw_ne : ps.map (fun p => ((size : ℚ) * (p / totalP)) ^ (-beta)) ≠ [] := by
    simp only [ne_eq, List.map_eq_nil_iff]
    exact hne
  have hraw_pos : ∀ x ∈ ps.map (fun p => ((size : ℚ) * (p / totalP)) ^ (-beta)), 0 < x := by
    intro x hx
    obtain ⟨p, hp, rfl⟩ := List.mem_map.mp hx
    have hp0 := hpos p hp
    have harg : 0 < (size : ℚ) * (p / totalP) := by positivity
    exact zpow_pos harg _
  have hM_pos : 0 < npMax (ps.map (fun p => ((size : ℚ) * (p / totalP)) ^ (-beta))) :=
    hraw_pos _ (npMax_mem _ hraw_ne)
  refine ⟨?_, ?_, ?_⟩
  · unfold isWeights
    simp only [List.map_map]
    apply List.map_congr_left
    intro p hp
    simp only [Function.comp_apply]
    rw [mul_div_assoc]
  · unfold isWeights
    simp only []
    apply le_antisymm
    · apply npMax_le
      · simp only [ne_eq, List.map_eq_nil_iff]
        exact hne
      · intro x hx
        obtain ⟨w, hw, rfl⟩ := List.mem_map.mp hx
        exact div_le_one_of_le (le_npMax _ _ hw) (le_of_lt hM_pos)
    · have hM_mem :
          npMax (ps.map (fun p => ((size : ℚ) * (p / totalP)) ^ (-beta)))
            / npMax (ps.map (fun p => ((size : ℚ) * (p / totalP)) ^ (-beta)))
          ∈ (ps.map (fun p => ((size : ℚ) * (p / totalP)) ^ (-beta))).map
              (fun w => w / npMax (ps.map (fun p => ((size : ℚ) * (p / totalP)) ^ (-beta)))) :=
        List.mem_map.mpr ⟨_, npMax_mem _ hraw_ne, rfl⟩
      have h1 : npMax (ps.map (fun p => ((size : ℚ) * (p / totalP)) ^ (-beta)))
          / npMax (ps.map (fun p => ((size : ℚ) * (p / totalP)) ^ (-beta))) = 1 :=
        div_self (ne_of_gt hM_pos)
      rw [← h1]
      exact le_npMax _ _ hM_mem
  · unfold isWeights
    intro w hw
    obtain ⟨x, hx, rfl⟩ := List.mem_map.mp hw
    exact div_nonneg (le_of_lt (hraw_pos x hx)) (le_of_lt hM_pos)

/-- Witness for C4 on the batch of priorities [1, 2] with beta = 1. -/
theorem c4_importance_weights_witness :
    ([(1 : ℚ), 2] ≠ []) ∧ (∀ p ∈ [(1 : ℚ), 2], 0 < p) ∧ ((0 : ℚ) < 3)
    ∧ npMax (isWeights 1 2 3 [1, 2]) = 1
    ∧ (∀ w ∈ isWeights 1 2 3 [1, 2], 0 ≤ w) := by
  have h1 : ([(1 : ℚ), 2] ≠ []) := by simp
  have h2 : ∀ p ∈ [(1 : ℚ), 2], 0 < p := by
    intro p hp
    rcases List.mem_cons.mp hp with rfl | hp2
    · norm_num
    · rcases List.mem_cons.mp hp2 with rfl | hp3
      · norm_num
      · cases hp3
  have h := c4_importance_weights 1 2 3 [1, 2] h1 h2 (by norm_num) (by norm_num)
  exact ⟨h1, h2, by norm_num, h.2.1, h.2.2⟩

theorem add1_slotEq_self (rm : ReplayMemory) (d : Transition) :
    slotEq (rm.add1 d) rm.idx d := by
  unfold ReplayMemory.add1
  split_ifs <;> simp [slotEq, Function.update]

theorem add1_slot_other (rm : ReplayMemory) (d : Transition) (j : ℕ)
    (hj : j ≠ rm.idx) :
    (rm.add1 d).states j = rm.states j ∧ (rm.add1 d).actions j = rm.actions j
      ∧ (rm.add1 d).rewards j = rm.rewards j
      ∧ (rm.add1 d).next_states j = rm.next_states j
      ∧ (rm.add1 d).absorbing j = rm.absorbing j
      ∧ (rm.add1 d).last j = rm.last j := by
  unfold ReplayMemory.add1
  split_ifs <;> simp [Function.update, hj]

theorem add1_idx (rm : ReplayMemory) (d : Transition) :
    (rm.add1 d).idx = if rm.idx + 1 = rm.max_size then 0 else rm.idx + 1 := by
  unfold ReplayMemory.add1
  split_ifs <;> rfl

theorem add1_full (rm : ReplayMemory) (d : Transition) :
    (rm.add1 d).full = (rm.full || decide (rm.idx + 1 = rm.max_size)) := by
  unfold ReplayMemory.add1
  split_ifs with h <;> simp [h]

theorem add1_max (rm : ReplayMemory) (d : Transition) :
    (rm.add1 d).max_size = rm.max_size := by
  unfold ReplayMemory.add1
  split_ifs <;> rfl

theorem succ_mod_branch (n m : ℕ) (hm : 1 ≤ m) :
    (n + 1) % m = if n % m + 1 = m then 0 else n % m + 1 := by
  split_ifs with h
  · rw [← Nat.mod_add_mod, h, Nat.mod_self]
  · rw [← Nat.mod_add_mod]
    apply Nat.mod_eq_of_lt
    have := Nat.mod_lt n (show 0 < m by omega)
    omega

theorem mod_ne_of_window (k n m : ℕ) (h1 : k < n) (h2 : n < k + m) :
    k % m ≠ n % m := by
  intro h
  have hd : m ∣ n - k := (Nat.modEq_iff_dvd' (le_of_lt h1)).mp h
  have := Nat.le_of_dvd (by omega) hd
  omega

theorem exists_residue (n m j : ℕ) (hm : 1 ≤ m) (hj : j < m) (hn : m < n) :
    ∃ k, n - m ≤ k ∧ k < n ∧ k % m = j := by
  have hr : (n - m) % m < m := Nat.mod_lt _ (by omega)
  refine ⟨n - m + (j + m - (n - m) % m) % m, Nat.le_add_right _ _, ?_, ?_⟩
  · have hb : (j + m - (n - m) % m) % m < m := Nat.mod_lt _ (by omega)
    omega
  · have h1 : (n - m + (j + m - (n - m) % m) % m) % m
        = (n - m + (j + m - (n - m) % m)) % m :=
      Nat.ModEq.add_left (n - m) (Nat.mod_modEq (j + m - (n - m) % m) m)
    have h2 : n - m + (j + m - (n - m) % m) = m * ((n - m) / m) + (j + m) := by
      have := Nat.mod_add_div (n - m) m
      omega
    rw [h1, h2, Nat.mul_add_mod, Nat.add_mod_right]
    exact Nat.mod_eq_of_lt hj

theorem add_spec (i m : ℕ) (hm : 1 ≤ m) (ds : List Transition) :
    ((ReplayMemory.init i m).add ds).max_size = m
    ∧ ((ReplayMemory.init i m).add ds).idx = ds.length % m
    ∧ (((ReplayMemory.init i m).add ds).full = true ↔ m ≤ ds.length)
    ∧ ∀ k, k < ds.length → ds.length ≤ k + m →
        slotEq ((ReplayMemory.init i m).add ds) (k % m) (ds.getD k default) := by
  induction ds using List.reverseRecOn with
  | nil =>
    refine ⟨rfl, by simp [ReplayMemory.add, ReplayMemory.init, Nat.zero_mod], ?_, ?_⟩
    · simp [ReplayMemory.add, ReplayMemory.init]
      omega
    · intro k hk
      simp at hk
  | append_singleton l a ih =>
    obtain ⟨ihmax, ihidx, ihfull, ihcont⟩ := ih
    have hfold : (ReplayMemory.init i m).add (l ++ [a])
        = ((ReplayMemory.init i m).add l).add1 a := by
      simp [ReplayMemory.add, List.foldl_append]
    set rm := (ReplayMemory.init i m).add l with hrm
    have hlen : (l ++ [a]).length = l.length + 1 := by simp
    refine ⟨?_, ?_, ?_, ?_⟩
    · rw [hfold, add1_max, ihmax]
    · rw [hfold, add1_idx, ihidx, ihmax, hlen]
      exact (succ_mod_branch l.length m hm).symm
    · rw [hfold, add1_full, ihidx, ihmax, hlen]
      by_cases hc : m ≤ l.length
      · rw [ihfull.mpr hc]
        simp only [Bool.true_or, true_iff]
        omega
      · have hf : rm.full = false := by
          rcases Bool.eq_false_or_eq_true rm.full with h | h
          · exact absurd (ihfull.mp h) hc
          · exact h
        rw [hf]
        have hlt : l.length % m = l.length := Nat.mod_eq_of_lt (by omega)
        simp only [Bool.false_or, decide_eq_true_eq, hlt]
        omega
    · intro k hk1 hk2
      rw [hlen] at hk1 hk2
      rcases Nat.lt_succ_iff_lt_or_eq.mp hk1 with hk | hk
      · -- an older slot, untouched by the new write
        have hcont := ihcont k hk (by omega)
        have hne : k % m ≠ rm.idx := by
          rw [ihidx]
          exact mod_ne_of_window k l.length m hk (by omega)
        have hoth := add1_slot_other rm a (k % m) hne
        have hgetd : (l ++ [a]).getD k default = l.getD k default := by
          rw [List.getD_eq_getElem?_getD, List.getElem?_append_left hk,
            ← List.getD_eq_getElem?_getD]
        rw [hfold, hgetd]
        obtain ⟨c1, c2, c3, c4, c5, c6⟩ := hcont
        exact ⟨hoth.1.trans c1, hoth.2.1.trans c2, hoth.2.2.1.trans c3,
          hoth.2.2.2.1.trans c4, hoth.2.2.2.2.1.trans c5, hoth.2.2.2.2.2.trans c6⟩
      · -- the newly written slot
        subst hk
        have hgetd : (l ++ [a]).getD l.length default = a := by
          rw [List.getD_eq_getElem?_getD, List.getElem?_append_right (le_refl _)]
          simp
        have hw := add1_slotEq_self rm a
        rw [ihidx] at hw
        rw [hfold, hgetd]
        exact hw

/-- C2: for every ReplayMemory with positive capacity, after inserting a
stream of `total_inserted` transitions into a fresh buffer,
`size() = min(total_inserted, max_size)`; and once
`total_inserted > max_size`, every slot of the six parallel arrays holds
exactly the transition of the most recent window whose stream position is
congruent to that slot (the oldest entries having been silently
overwritten at the write cursor), so the buffer contains exactly the most
recent `max_size` transitions. -/
theorem c2_ring_invariant (i m : ℕ) (hm : 1 ≤ m) (ds : List Transition) :
    ((ReplayMemory.init i m).add ds).size = min ds.length m
    ∧ (m < ds.length → ∀ j, j < m →
        ∃ k, ds.length - m ≤ k ∧ k < ds.length ∧ k % m = j
          ∧ slotEq ((ReplayMemory.init i m).add ds) j (ds.getD k default)) := by
  obtain ⟨hmax, hidx, hfull, hcont⟩ := add_spec i m hm ds
  constructor
  · unfold ReplayMemory.size
    by_cases hc : m ≤ ds.length
    · rw [hfull.mpr hc]
      simp only [if_true, hmax]
      omega
    · have hf : ((ReplayMemory.init i m).add ds).full = false := by
        rcases Bool.eq_false_or_eq_true ((ReplayMemory.init i m).add ds).full with h | h
        · exact absurd (hfull.mp h) hc
        · exact h
      rw [hf]
      simp only [Bool.false_eq_true, if_false, hidx]
      rw [Nat.mod_eq_of_lt (by omega)]
      omega
  · intro hlt j hj
    obtain ⟨k, hk1, hk2, hk3⟩ := exists_residue ds.length m j hm hj hlt
    refine ⟨k, hk1, hk2, hk3, ?_⟩
    have := hcont k hk2 (by omega)
    rw [hk3] at this
    exact this

/-- Witness for C2 with three transitions pushed into a buffer of
capacity 2. -/
theorem c2_ring_invariant_witness :
    ((ReplayMemory.init 1 2).add
      [⟨1, 0, 0, 0, false, false⟩, ⟨2, 0, 0, 0, false, false⟩,
       ⟨3, 0, 0, 0, false, false⟩]).size = min 3 2
    ∧ (2 < 3 → ∀ j, j < 2 →
        ∃ k, 3 - 2 ≤ k ∧ k < 3 ∧ k % 2 = j
          ∧ slotEq ((ReplayMemory.init 1 2).add
              [⟨1, 0, 0, 0, false, false⟩, ⟨2, 0, 0, 0, false, false⟩,
               ⟨3, 0, 0, 0, false, false⟩]) j
              ([(⟨1, 0, 0, 0, false, false⟩ : Transition),
                ⟨2, 0, 0, 0, false, false⟩,
                ⟨3, 0, 0, 0, false, false⟩].getD k default)) := by
  exact c2_ring_invariant 1 2 (by norm_num) _

theorem whereAbsorbing_shift (xs : List Transition) (i : ℕ) :
    whereAbsorbing xs i = (whereAbsorbing xs 0).map (fun a => a + i) := by
  induction xs generalizing i with
  | nil => rfl
  | cons x xs ih =>
    unfold whereAbsorbing
    cases hx : x.absorbing
    · simp only [Bool.false_eq_true, if_false]
      rw [ih (i + 1), ih 1, List.map_map]
      apply List.map_congr_left
      intro a _
      simp only [Function.comp_apply]
      omega
    · simp only [if_true]
      rw [ih (i + 1), ih 1, List.map_cons, List.map_map]
      congr 1
      · omega
      · apply List.map_congr_left
        intro a _
        simp only [Function.comp_apply]
        omega

theorem sliceEps_shift (x : Transition) (xs : List Transition) (args : List ℕ) :
    sliceEps (x :: xs) (args.map (· + 1)) = sliceEps xs args := by
  unfold sliceEps
  rw [show (args.map (· + 1)).tail = args.tail.map (· + 1) by
    cases args <;> rfl]
  rw [List.zip_map (· + 1) (· + 1) args args.tail, List.map_map]
  apply List.map_congr_left
  intro se _
  simp only [Function.comp_apply, Prod.map]
  rw [List.drop_succ_cons]
  congr 1
  omega

theorem sliceEps_cons2 (ds : List Transition) (a b : ℕ) (rest : List ℕ) :
    sliceEps ds (a :: b :: rest) = ((ds.drop a).take (b - a)) :: sliceEps ds (b :: rest) := rfl

theorem getLastD_map_succ (l : List ℕ) (d : ℕ) :
    (l.map (· + 1)).getLastD (d + 1) = l.getLastD d + 1 := by
  induction l generalizing d with
  | nil => rfl
  | cons y ys ih =>
    rw [List.map_cons, List.getLastD_cons, List.getLastD_cons]
    exact ih y

theorem whereAbsorbing_cons_true (x : Transition) (xs : List Transition)
    (hx : x.absorbing = true) :
    whereAbsorbing (x :: xs) 0 = 0 :: (whereAbsorbing xs 0).map (· + 1) := by
  have h1 : whereAbsorbing (x :: xs) 0 = 0 :: whereAbsorbing xs 1 := by
    rw [whereAbsorbing, hx]
    simp
  rw [h1, whereAbsorbing_shift xs 1]

theorem whereAbsorbing_cons_false (x : Transition) (xs : List Transition)
    (hx : x.absorbing = false) :
    whereAbsorbing (x :: xs) 0 = (whereAbsorbing xs 0).map (· + 1) := by
  have h1 : whereAbsorbing (x :: xs) 0 = whereAbsorbing xs 1 := by
    rw [whereAbsorbing, hx]
    simp
  rw [h1, whereAbsorbing_shift xs 1]

/-- Splitting a dataset whose head transition is absorbing: the head forms
a one-step episode and the rest splits as before. -/
theorem splitDataset_cons_absorbing (x : Transition) (xs : List Transition)
    (hx : x.absorbing = true) :
    splitDataset (x :: xs) = ([x] :: (splitDataset xs).1, (splitDataset xs).2) := by
  have hidx := whereAbsorbing_cons_true x xs hx
  have he : (splitDataset (x :: xs)).1 = [x] :: (splitDataset xs).1 := by
    show sliceEps (x :: xs) (0 :: (whereAbsorbing (x :: xs) 0).map (· + 1))
        = [x] :: sliceEps xs (0 :: (whereAbsorbing xs 0).map (· + 1))
    rw [hidx, List.map_cons]
    rw [show (0 : ℕ) + 1 = 1 from rfl]
    rw [sliceEps_cons2]
    rw [show (1 : ℕ) :: ((whereAbsorbing xs 0).map (· + 1)).map (· + 1)
        = ((0 : ℕ) :: (whereAbsorbing xs 0).map (· + 1)).map (· + 1) from by
      rw [List.map_cons]]
    rw [sliceEps_shift]
    simp
  have hu : (splitDataset (x :: xs)).2 = (splitDataset xs).2 := by
    show (x :: xs).drop ((0 :: (whereAbsorbing (x :: xs) 0).map (· + 1)).getLastD 0)
        = xs.drop ((0 :: (whereAbsorbing xs 0).map (· + 1)).getLastD 0)
    rw [hidx, List.map_cons, List.getLastD_cons, List.getLastD_cons]
    cases hw : (whereAbsorbing xs 0).map (· + 1) with
    | nil => rfl
    | cons y ys =>
      rw [List.map_cons, List.getLastD_cons, List.getLastD_cons,
        getLastD_map_succ ys y, List.drop_succ_cons, List.getLastD_cons]
  calc splitDataset (x :: xs)
      = ((splitDataset (x :: xs)).1, (splitDataset (x :: xs)).2) := rfl
    _ = ([x] :: (splitDataset xs).1, (splitDataset xs).2) := by rw [he, hu]

/-- Splitting a dataset whose head transition is not absorbing: the head
is prepended to the first complete episode when one exists, otherwise to
the unfinished remainder. -/
theorem splitDataset_cons_not_absorbing (x : Transition) (xs : List Transition)
    (hx : x.absorbing = false) :
    (whereAbsorbing xs 0 = [] ∧ splitDataset (x :: xs) = ([], x :: xs)
        ∧ splitDataset xs = ([], xs))
    ∨ (∃ e es, (splitDataset xs).1 = e :: es
        ∧ splitDataset (x :: xs) = ((x :: e) :: es, (splitDataset xs).2)) := by
  have hidx := whereAbsorbing_cons_false x xs hx
  cases hw : whereAbsorbing xs 0 with
  | nil =>
    left
    have hxs : splitDataset xs = ([], xs) := by
      show (sliceEps xs (0 :: (whereAbsorbing xs 0).map (· + 1)),
            xs.drop ((0 :: (whereAbsorbing xs 0).map (· + 1)).getLastD 0)) = ([], xs)
      rw [hw]
      rfl
    have hxxs : splitDataset (x :: xs) = ([], x :: xs) := by
      show (sliceEps (x :: xs) (0 :: (whereAbsorbing (x :: xs) 0).map (· + 1)),
            (x :: xs).drop ((0 :: (whereAbsorbing (x :: xs) 0).map (· + 1)).getLastD 0))
          = ([], x :: xs)
      rw [hidx, hw]
      rfl
    exact ⟨rfl, hxxs, hxs⟩
  | cons i t =>
    right
    refine ⟨xs.take (i + 1), sliceEps xs ((i + 1) :: t.map (· + 1)), ?_, ?_⟩
    · show sliceEps xs (0 :: (whereAbsorbing xs 0).map (· + 1)) = _
      rw [hw, List.map_cons, sliceEps_cons2]
      simp
    · have he : (splitDataset (x :: xs)).1
          = (x :: xs.take (i + 1)) :: sliceEps xs ((i + 1) :: t.map (· + 1)) := by
        show sliceEps (x :: xs) (0 :: (whereAbsorbing (x :: xs) 0).map (· + 1)) = _
        rw [hidx, hw, List.map_cons, List.map_cons, sliceEps_cons2]
        rw [show ((i : ℕ) + 1 + 1) :: (t.map (· + 1)).map (· + 1)
            = (((i : ℕ) + 1) :: t.map (· + 1)).map (· + 1) from by rw [List.map_cons]]
        rw [sliceEps_shift]
        congr 1
      have hu : (splitDataset (x :: xs)).2 = (splitDataset xs).2 := by
        show (x :: xs).drop ((0 :: (whereAbsorbing (x :: xs) 0).map (· + 1)).getLastD 0)
            = xs.drop ((0 :: (whereAbsorbing xs 0).map (· + 1)).getLastD 0)
        rw [hidx, hw, List.map_cons, List.map_cons, List.getLastD_cons,
          List.getLastD_cons, List.getLastD_cons, List.getLastD_cons]
        rw [getLastD_map_succ (t.map (· + 1)) (i + 1)]
        rw [List.drop_succ_cons]
      calc splitDataset (x :: xs)
          = ((splitDataset (x :: xs)).1, (splitDataset (x :: xs)).2) := rfl
        _ = ((x :: xs.take (i + 1)) :: sliceEps xs ((i + 1) :: t.map (· + 1)),
              (splitDataset xs).2) := by rw [he, hu]

theorem dropLast_cons_of_ne_nil (x : Transition) (l : List Transition)
    (h : l ≠ []) : (x :: l).dropLast = x :: l.dropLast := by
  cases l with
  | nil => exact absurd rfl h
  | cons y ys => rfl

theorem splitDataset_sound (ds : List Transition) :
    (splitDataset ds).1.join ++ (splitDataset ds).2 = ds
    ∧ (∀ e ∈ (splitDataset ds).1, e ≠ []
        ∧ (e.getLastD default).absorbing = true
        ∧ ∀ tr ∈ e.dropLast, tr.absorbing = false)
    ∧ (∀ tr ∈ (splitDataset ds).2, tr.absorbing = false) := by
  induction ds with
  | nil =>
    have h0 : splitDataset [] = ([], []) := rfl
    rw [h0]
    refine ⟨rfl, ?_, ?_⟩
    · intro e he; cases he
    · intro tr htr; cases htr
  | cons x xs ih =>
    obtain ⟨ih1, ih2, ih3⟩ := ih
    cases hx : x.absorbing
    · rcases splitDataset_cons_not_absorbing x xs hx with
        ⟨hw, hxxs, hxs⟩ | ⟨e, es, hes, hxxs⟩
      · rw [hxxs]
        rw [hxs] at ih3
        refine ⟨by simp, ?_, ?_⟩
        · intro e he; cases he
        · intro tr htr
          rcases List.mem_cons.mp htr with rfl | htr2
          · exact hx
          · exact ih3 tr htr2
      · rw [hxxs]
        refine ⟨?_, ?_, ?_⟩
        · rw [hes] at ih1
          simp only [List.join_cons, List.cons_append, List.append_assoc] at ih1 ⊢
          rw [ih1]
        · intro f hf
          rcases List.mem_cons.mp hf with rfl | hf2
          · obtain ⟨hene, helast, hedrop⟩ :=
              ih2 e (by rw [hes]; exact List.mem_cons_self _ _)
            refine ⟨by simp, ?_, ?_⟩
            · rw [List.getLastD_cons]
              cases e with
              | nil => exact absurd rfl hene
              | cons y ys =>
                rw [List.getLastD_cons] at helast ⊢
                exact helast
            · intro tr htr
              rw [dropLast_cons_of_ne_nil x e hene] at htr
              rcases List.mem_cons.mp htr with rfl | htr2
              · exact hx
              · exact hedrop tr htr2
          · exact ih2 f (by rw [hes]; exact List.mem_cons_of_mem _ hf2)
        · exact ih3
    · rw [splitDataset_cons_absorbing x xs hx]
      refine ⟨?_, ?_, ?_⟩
      · simp only [List.join_cons, List.cons_append, List.nil_append,
          List.append_assoc]
        rw [ih1]
      · intro f hf
        rcases List.mem_cons.mp hf with rfl | hf2
        · refine ⟨by simp, hx, ?_⟩
          intro tr htr
          simp at htr
        · exact ih2 f hf2
      · exact ih3

/-- C5: `_split_dataset` applied to the carried-over unfinished episode
prepended to the incoming stream splits the concatenation exactly at the
transitions whose episode-boundary (absorbing) flag is set: the episodes
concatenate back to the input, every complete episode is nonempty, ends
with a flagged transition and contains no earlier flagged transition, and
the trailing unfinished remainder contains no flagged transition.  On the
7-step stream with flags at positions 2 and 5 this yields episodes of
lengths 3 and 3 with 1 leftover unfinished transition. -/
theorem c5_episode_split (carry stream : List Transition) :
    ((splitDataset (carry ++ stream)).1.join ++ (splitDataset (carry ++ stream)).2
        = carry ++ stream)
    ∧ (∀ e ∈ (splitDataset (carry ++ stream)).1, e ≠ []
        ∧ (e.getLastD default).absorbing = true
        ∧ ∀ tr ∈ e.dropLast, tr.absorbing = false)
    ∧ (∀ tr ∈ (splitDataset (carry ++ stream)).2, tr.absorbing = false)
    ∧ (splitDataset c5ex).1.map List.length = [3, 3]
    ∧ (splitDataset c5ex).2.length = 1 := by
  obtain ⟨h1, h2, h3⟩ := splitDataset_sound (carry ++ stream)
  exact ⟨h1, h2, h3, by decide, by decide⟩

theorem evictLoop_spec (maxSize : ℕ) (eps : List (List Transition))
    (lens : List ℕ) (size : ℕ) (hlen : lens = eps.map List.length)
    (hsz : size = (eps.map List.length).sum) :
    ∃ k, k ≤ eps.length ∧ (evictLoop maxSize eps lens size).1 = eps.drop k
      ∧ (evictLoop maxSize eps lens size).2.1 = lens.drop k
      ∧ (evictLoop maxSize eps lens size).2.2
          = ((eps.drop k).map List.length).sum
      ∧ (evictLoop maxSize eps lens size).2.2 ≤ maxSize := by
  induction eps generalizing lens size with
  | nil =>
    refine ⟨0, le_refl 0, rfl, rfl, by simpa using hsz, ?_⟩
    show size ≤ maxSize
    simp at hsz
    omega
  | cons e rest ih =>
    rw [evictLoop]
    split_ifs with hguard
    · have hlen2 : lens.tail = rest.map List.length := by
        rw [hlen]; rfl
      have hsz2 : size - e.length = (rest.map List.length).sum := by
        simp only [List.map_cons, List.sum_cons] at hsz
        omega
      obtain ⟨k, hk, h1, h2, h3, h4⟩ := ih lens.tail (size - e.length) hlen2 hsz2
      refine ⟨k + 1, by simp; omega, ?_, ?_, ?_, h4⟩
      · rw [h1, List.drop_succ_cons]
      · rw [h2, hlen, List.map_cons, List.drop_succ_cons]
        rfl
      · rw [h3, List.drop_succ_cons]
    · refine ⟨0, Nat.zero_le _, rfl, rfl, by simpa using hsz, ?_⟩
      show size ≤ maxSize
      omega

theorem addEpisode_inv (st : SeqReplayMemory) (ep : List Transition)
    (h : SeqInv st) :
    SeqInv (st.addEpisode ep)
    ∧ (st.addEpisode ep).max_size = st.max_size
    ∧ (st.addEpisode ep).unroll_steps = st.unroll_steps
    ∧ (st.addEpisode ep).unfinished = st.unfinished
    ∧ ∃ k, k ≤ (st.episodes
          ++ if st.unroll_steps ≤ ep.length ∧ ep.length < st.max_size
             then [ep] else []).length
        ∧ (st.addEpisode ep).episodes
          = (st.episodes
              ++ if st.unroll_steps ≤ ep.length ∧ ep.length < st.max_size
                 then [ep] else []).drop k := by
  obtain ⟨hb, hl, hs, hcap⟩ := h
  unfold SeqReplayMemory.addEpisode
  split_ifs with hcond
  · have hlen : st.lengths ++ [ep.length] = (st.episodes ++ [ep]).map List.length := by
      rw [hl, List.map_append]
      rfl
    have hsz : st.size + ep.length = ((st.episodes ++ [ep]).map List.length).sum := by
      rw [hs, List.map_append, List.sum_append]
      simp
    obtain ⟨k, hk, h1, h2, h3, h4⟩ := evictLoop_spec st.max_size
      (st.episodes ++ [ep]) (st.lengths ++ [ep.length]) (st.size + ep.length)
      hlen hsz
    refine ⟨⟨?_, ?_, ?_, ?_⟩, rfl, rfl, rfl, ⟨k, hk, h1⟩⟩
    · show ∀ e ∈ (evictLoop st.max_size (st.episodes ++ [ep])
          (st.lengths ++ [ep.length]) (st.size + ep.length)).1,
        st.unroll_steps ≤ e.length ∧ e.length < st.max_size
      intro e he
      rw [h1] at he
      rcases List.mem_append.mp (List.mem_of_mem_drop he) with h5 | h5
      · exact hb e h5
      · rw [List.mem_singleton] at h5
        subst h5
        exact hcond
    · show (evictLoop st.max_size (st.episodes ++ [ep])
          (st.lengths ++ [ep.length]) (st.size + ep.length)).2.1
        = (evictLoop st.max_size (st.episodes ++ [ep])
            (st.lengths ++ [ep.length]) (st.size + ep.length)).1.map List.length
      rw [h1, h2, hlen, List.map_drop]
    · show (evictLoop st.max_size (st.episodes ++ [ep])
          (st.lengths ++ [ep.length]) (st.size + ep.length)).2.2
        = ((evictLoop st.max_size (st.episodes ++ [ep])
            (st.lengths ++ [ep.length]) (st.size + ep.length)).1.map List.length).sum
      rw [h1, h3]
    · show (evictLoop st.max_size (st.episodes ++ [ep])
          (st.lengths ++ [ep.length]) (st.size + ep.length)).2.2 ≤ st.max_size
      exact h4
  · refine ⟨⟨hb, hl, hs, hcap⟩, rfl, rfl, rfl, ⟨0, Nat.zero_le _, by simp⟩⟩

theorem foldAdd_inv (eps : List (List Transition)) (st : SeqReplayMemory)
    (h : SeqInv st) :
    SeqInv (eps.foldl SeqReplayMemory.addEpisode st)
    ∧ (eps.foldl SeqReplayMemory.addEpisode st).max_size = st.max_size
    ∧ (eps.foldl SeqReplayMemory.addEpisode st).unroll_steps = st.unroll_steps
    ∧ (eps.foldl SeqReplayMemory.addEpisode st).unfinished = st.unfinished
    ∧ ∃ k, (eps.foldl SeqReplayMemory.addEpisode st).episodes
        = (st.episodes ++ eps.filter (fun e =>
            decide (st.unroll_steps ≤ e.length ∧ e.length < st.max_size))).drop k := by
  induction eps generalizing st with
  | nil => exact ⟨h, rfl, rfl, rfl, ⟨0, by simp⟩⟩
  | cons e rest ih =>
    simp only [List.foldl_cons]
    obtain ⟨h1, h2, h3, h4, k1, hk1, hd1⟩ := addEpisode_inv st e h
    obtain ⟨g1, g2, g3, g4, k2, hd2⟩ := ih (st.addEpisode e) h1
    refine ⟨g1, g2.trans h2, g3.trans h3, g4.trans h4, ⟨k2 + k1, ?_⟩⟩
    rw [hd2, hd1, h2, h3]
    rw [← List.drop_append_of_le_length hk1]
    rw [List.drop_drop]
    congr 1
    · omega
    · rw [List.append_assoc]
      congr 1
      rw [List.filter_cons]
      by_cases hc : st.unroll_steps ≤ e.length ∧ e.length < st.max_size
      · rw [if_pos hc, if_pos (by exact decide_eq_true hc)]
        rfl
      · rw [if_neg hc, if_neg (by simpa using hc)]
        rfl

/-- C6: after every `SequentialReplayMemory.add` on a well-formed state,
the state is again well-formed — every stored episode has
`unroll_steps <= length < max_size`, the size counter equals the sum of
the stored episode lengths, agrees with the lengths list and is at most
`max_size` — and the stored episodes are a suffix of the previously
stored episodes followed by the qualifying new complete episodes, so
eviction removes only whole episodes from the oldest end and no partial
episode is ever stored. -/
theorem c6_episodic_capacity (st : SeqReplayMemory) (ds : List Transition)
    (h : SeqInv st) :
    SeqInv (st.add ds)
    ∧ (st.add ds).max_size = st.max_size
    ∧ (st.add ds).unroll_steps = st.unroll_steps
    ∧ ∃ k, (st.add ds).episodes
        = (st.episodes ++ ((splitDataset (st.unfinished ++ ds)).1).filter
            (fun e => decide (st.unroll_steps ≤ e.length
              ∧ e.length < st.max_size))).drop k := by
  unfold SeqReplayMemory.add
  have h' : SeqInv { st with unfinished := (splitDataset (st.unfinished ++ ds)).2 } := h
  obtain ⟨g1, g2, g3, _, k, hk⟩ := foldAdd_inv _ _ h'
  exact ⟨g1, g2, g3, ⟨k, hk⟩⟩

/-- Witness for C6 on a fresh buffer receiving the 7-step stream. -/
theorem c6_episodic_capacity_witness :
    SeqInv (SeqReplayMemory.init 1 5 1)
    ∧ SeqInv ((SeqReplayMemory.init 1 5 1).add c5ex)
    ∧ ((SeqReplayMemory.init 1 5 1).add c5ex).max_size = 5 := by
  have h0 : SeqInv (SeqReplayMemory.init 1 5 1) := by
    refine ⟨?_, rfl, rfl, by norm_num [SeqReplayMemory.init]⟩
    intro e he
    cases he
  have h := c6_episodic_capacity (SeqReplayMemory.init 1 5 1) c5ex h0
  exact ⟨h0, h.1, h.2.1⟩

/-- C9: `SequentialReplayMemory.reset` does not clear
`unfinished_episode`.  After pushing one transition without a boundary
flag and calling reset, the size is 0 but the carried-over unfinished
episode survives; the next add prepends the pre-reset transition to the
new stream, so the stored episode differs from the one a freshly
constructed buffer stores on the same post-reset stream. -/
theorem c9_reset_keeps_unfinished :
    ((((SeqReplayMemory.init 1 10 1).add
        [⟨1, 0, 0, 0, false, false⟩]).reset).size = 0)
    ∧ (((SeqReplayMemory.init 1 10 1).add
        [⟨1, 0, 0, 0, false, false⟩]).reset).unfinished
        = [⟨1, 0, 0, 0, false, false⟩]
    ∧ ((((SeqReplayMemory.init 1 10 1).add
        [⟨1, 0, 0, 0, false, false⟩]).reset).add
          [⟨2, 0, 0, 0, true, false⟩]).episodes
        = [[⟨1, 0, 0, 0, false, false⟩, ⟨2, 0, 0, 0, true, false⟩]]
    ∧ ((SeqReplayMemory.init 1 10 1).add
        [⟨2, 0, 0, 0, true, false⟩]).episodes
        = [[⟨2, 0, 0, 0, true, false⟩]]
    ∧ ((((SeqReplayMemory.init 1 10 1).add
        [⟨1, 0, 0, 0, false, false⟩]).reset).add
          [⟨2, 0, 0, 0, true, false⟩]).episodes
        ≠ ((SeqReplayMemory.init 1 10 1).add
            [⟨2, 0, 0, 0, true, false⟩]).episodes := by
  refine ⟨rfl, rfl, ?_, ?_, ?_⟩ <;> decide
